import Mathlib

/-!
Verification of the metadata-interpretation and argument-synthesis engine of
the cargo runner (a shallow embedding of `runner/runners.go`).

Go strings are modelled as `List Char`; the helpers from Go's `strings`
package that the runner uses (`HasPrefix`, `SplitN`, `Split`, `LastIndex`,
`TrimSpace`, `TrimPrefix`, `TrimSuffix`, `Contains`, `Join`) are embedded as
structurally recursive functions with the same semantics on that model.
-/

set_option autoImplicit false
set_option maxRecDepth 8192

abbrev Str := List Char

/-- The characters accepted by Go's `unicode.IsSpace` (the White_Space set),
used by `strings.TrimSpace`. -/
def goSpaceChars : Str :=
  [' ', '\t', '\n', '\u000B', '\u000C', '\r', '\u0085', '\u00A0', '\u1680',
   '\u2000', '\u2001', '\u2002', '\u2003', '\u2004', '\u2005', '\u2006',
   '\u2007', '\u2008', '\u2009', '\u200A', '\u2028', '\u2029', '\u202F',
   '\u205F', '\u3000']

/-- Go `unicode.IsSpace`. -/
def isGoSpace (c : Char) : Bool := goSpaceChars.contains c

/-- Go `strings.TrimSpace`: drop leading and trailing white space. -/
def trimSpace (s : Str) : Str :=
  ((s.dropWhile isGoSpace).reverse.dropWhile isGoSpace).reverse

/-- Go `strings.HasPrefix p s` (arguments: the candidate prefix first, then
the string). -/
def hasPrefixB : Str → Str → Bool
  | [], _ => true
  | _ :: _, [] => false
  | p :: ps, c :: cs => p == c && hasPrefixB ps cs

/-- Go `strings.HasSuffix`. -/
def hasSuffixB (suf s : Str) : Bool := hasPrefixB suf.reverse s.reverse

/-- Go `strings.TrimPrefix s pre` (the trimmed-off part first here). -/
def trimPrefixStr (pre s : Str) : Str :=
  if hasPrefixB pre s then s.drop pre.length else s

/-- Go `strings.TrimSuffix s suf`. -/
def trimSuffixStr (suf s : Str) : Str :=
  if hasSuffixB suf s then s.take (s.length - suf.length) else s

/-- Split a string at the first occurrence of `sep`: `some (before, after)`
when `sep` occurs, `none` otherwise. Shared engine of Go's `SplitN`/`Split`
for a one-character separator. -/
def breakOn (sep : Char) : Str → Option (Str × Str)
  | [] => none
  | c :: cs =>
    if c = sep then some ([], cs)
    else (breakOn sep cs).map (fun pq => (c :: pq.1, pq.2))

/-- Go `strings.SplitN s sep n` for a one-character separator and `n ≥ 0`. -/
def splitN : Nat → Char → Str → List Str
  | 0, _, _ => []
  | 1, _, s => [s]
  | n + 2, sep, s =>
    match breakOn sep s with
    | none => [s]
    | some (p, q) => p :: splitN (n + 1) sep q

/-- Go `strings.Split s sep` for a one-character separator (unbounded). -/
def splitAll (sep : Char) : Str → List Str
  | [] => [[]]
  | c :: rest =>
    if c = sep then [] :: splitAll sep rest
    else
      match splitAll sep rest with
      | [] => [[c]]
      | r :: rs => (c :: r) :: rs

/-- Go `strings.LastIndex s c` for a one-character needle: the index of the
last occurrence, `-1` when absent. -/
def lastIndexInt (c : Char) : Str → Int
  | [] => -1
  | a :: rest =>
    let r := lastIndexInt c rest
    if 0 ≤ r then r + 1 else if a = c then 0 else -1

/-- Go `strings.Contains s sub`. -/
def goContains (s sub : Str) : Bool :=
  hasPrefixB sub s ||
    match s with
    | [] => false
    | _ :: rest => goContains rest sub

/-- Go `strings.Join`. -/
def joinStr (sep : Str) : List Str → Str
  | [] => []
  | [x] => x
  | x :: xs => x ++ sep ++ joinStr sep xs

/-- The two error shapes produced by `ParseWorkspaceMember` (runners.go
255 and 273), each carrying the offending input. -/
inductive ParseError where
  | missingHash : Str → ParseError
  | unexpectedFormat : Str → ParseError
deriving DecidableEq

instance : DecidableEq (Except ParseError (Str × Str × Str)) := fun a b =>
  match a, b with
  | .ok x, .ok y =>
    decidable_of_iff (x = y) ⟨fun h => by rw [h], fun h => Except.ok.inj h⟩
  | .error e, .error f =>
    decidable_of_iff (e = f) ⟨fun h => by rw [h], fun h => Except.error.inj h⟩
  | .ok _, .error _ => isFalse (fun h => Except.noConfusion h)
  | .error _, .ok _ => isFalse (fun h => Except.noConfusion h)

/-- `ParseWorkspaceMember` (runners.go 251-277): decodes one workspace-member
identifier into (package name, version, URL). The branch for a `path+file://`
identifier without `@` indexes with `strings.LastIndex(half[0], "/")`; the
prefix guarantees a `/` is present, so the index is never `-1` there and the
`Int.toNat` clamping below coincides with Go's slicing. -/
def ParseWorkspaceMember (workspaceMember : Str) : Except ParseError (Str × Str × Str) :=
  if hasPrefixB ("path+file://".toList) workspaceMember then
    match breakOn '#' workspaceMember with
    | none => .error (.missingHash workspaceMember)
    | some (half0, half1) =>
      match breakOn '@' half1 with
      | some (name, ver) =>
        .ok (trimSpace name, trimSpace ver, trimSpace half0)
      | none =>
        let splitIndex := lastIndexInt '/' half0
        let path := half0.take splitIndex.toNat
        let pkgName := half0.drop (splitIndex + 1).toNat
        .ok (trimSpace pkgName, trimSpace half1, trimSpace path)
  else
    match splitN 3 ' ' workspaceMember with
    | [p0, p1, p2] =>
      .ok (trimSpace p0, trimSpace p1,
           trimSuffixStr (")".toList) (trimPrefixStr ("(".toList) p2))
    | _ => .error (.unexpectedFormat workspaceMember)

/-- `makeFilterMap` (runners.go 528-541): the retain-set of trimmed workspace
member names built from the comma-separated `CargoWorkspaceMembers`
configuration. The Go `map[string]bool` is modelled by a list of inserted
keys queried by membership; emptiness of the list coincides with
`len(filterMap) == 0`. -/
def makeFilterMap (cargoWorkspaceMembers : Str) : List Str :=
  if cargoWorkspaceMembers = [] then []
  else
    (if goContains cargoWorkspaceMembers (",".toList) then []
     else [cargoWorkspaceMembers]) ++
      (splitAll ',' cargoWorkspaceMembers).map trimSpace

/-- The keep-condition `len(filterMap) > 0 && filterMap[strings.TrimSpace(x)]
|| len(filterMap) == 0` that `WorkspaceMembers` (runners.go 230) and
`ProjectTargets` (runners.go 293) apply to each candidate member name. -/
def memberKeep (cargoWorkspaceMembers candidate : Str) : Bool :=
  let filterMap := makeFilterMap cargoWorkspaceMembers
  (decide (0 < filterMap.length) && filterMap.contains (trimSpace candidate)) ||
    decide (filterMap.length = 0)

/-- The member filter: the subsequence of candidate member names that
`WorkspaceMembers` keeps under configuration `cargoWorkspaceMembers`. -/
def WorkspaceMembersFilter (cargoWorkspaceMembers : Str) (candidates : List Str) : List Str :=
  candidates.filter (memberKeep cargoWorkspaceMembers)

/-- Translation of the member-filter claim itself: keep a candidate exactly
when the configuration is empty or its trimmed name equals some trimmed
comma-separated entry of the configuration. Stated from the spec's words for
comparison with `memberKeep`. -/
def specMemberKeep (cfg candidate : Str) : Bool :=
  decide (cfg = []) ||
    ((splitAll ',' cfg).map trimSpace).contains (trimSpace candidate)

/-- A token that sets `--root` (bare flag or `--root=...` form). -/
def isRootToken (a : Str) : Bool :=
  a == ("--root".toList) || hasPrefixB ("--root=".toList) a

/-- A token that sets `--color`. -/
def isColorToken (a : Str) : Bool :=
  a == ("--color".toList) || hasPrefixB ("--color=".toList) a

/-- A token that sets `--path`. -/
def isPathToken (a : Str) : Bool :=
  a == ("--path".toList) || hasPrefixB ("--path=".toList) a

/-- A token that sets `--target`. -/
def isTargetToken (a : Str) : Bool :=
  a == ("--target".toList) || hasPrefixB ("--target=".toList) a

/-- The filtering loop of `FilterInstallArgs` (runners.go 435-450), with the
`skipNext` flag as first argument. -/
def filterArgsGo : Bool → List Str → List Str
  | _, [] => []
  | true, _ :: rest => filterArgsGo false rest
  | false, arg :: rest =>
    if arg == ("--root".toList) || arg == ("--color".toList) then
      filterArgsGo true rest
    else if hasPrefixB ("--root=".toList) arg || hasPrefixB ("--color=".toList) arg then
      filterArgsGo false rest
    else arg :: filterArgsGo false rest

/-- `FilterInstallArgs` (runners.go 429-453) after tokenization: strips the
operator-supplied `--root`/`--color` settings. -/
def FilterInstallArgs (argwords : List Str) : List Str :=
  filterArgsGo false argwords

/-- Models the `shellwords.Parse` tokenization of the external go-shellwords
library for argument strings without quoting or escaping: split on spaces and
drop empty words. -/
def tokenizeSimple (s : Str) : List Str :=
  (splitAll ' ' s).filter (fun w => decide (w ≠ []))

/-- `AddDefaultPath` (runners.go 456-463): append `--path=<default>` unless a
`--path` token is already present. -/
def AddDefaultPath (args : List Str) (defaultMemberPath : Str) : List Str :=
  if args.any isPathToken then args
  else args ++ [("--path=".toList) ++ defaultMemberPath]

/-- Constant `StaticTypeMUSLC` (runners.go 51). -/
def StaticTypeMUSLC : Str := "muslc".toList

/-- Constant `StaticTypeGNULIBC` (runners.go 52). -/
def StaticTypeGNULIBC : Str := "gnulibc".toList

/-- `archFromSystem` (runners.go 543-556). `bpArch` is the looked-up `BP_ARCH`
environment value (`none` when unset) and `goarch` the runtime-reported
architecture `runtime.GOARCH`. -/
def archFromSystem (bpArch : Option Str) (goarch : Str) : Str :=
  let archFromEnv := bpArch.getD goarch
  if archFromEnv = ("amd64".toList) then "x86_64".toList
  else if archFromEnv = ("arm64".toList) then "aarch64".toList
  else archFromEnv

/-- `AddDefaultTargetForTinyOrStatic` (runners.go 466-504). The external
`libpak.IsTinyStack`/`libpak.IsStaticStack` stack tests enter as the booleans
`tinyStack`/`staticStack`; the `RUSTFLAGS` environment value enters as
`rustFlags` and the returned pair carries the argument list together with the
`RUSTFLAGS` value in effect afterwards (the Go code writes it back with
`os.Setenv`). -/
def AddDefaultTargetForTinyOrStatic (args : List Str) (tinyStack staticStack : Bool)
    (staticType : Str) (rustFlags : Str) (bpArch : Option Str) (goarch : Str) :
    List Str × Str :=
  if !tinyStack && !staticStack then (args, rustFlags)
  else if args.any isTargetToken then (args, rustFlags)
  else if goContains rustFlags ("target-feature=+crt-static".toList) then (args, rustFlags)
  else
    let arch := archFromSystem bpArch goarch
    if staticType = StaticTypeGNULIBC then
      let rustFlagsList :=
        (if 0 < rustFlags.length then [rustFlags] else []) ++
          ["-C target-feature=+crt-static".toList]
      (args ++ [("--target=".toList) ++ arch ++ ("-unknown-linux-gnu".toList)],
       joinStr (" ".toList) rustFlagsList)
    else
      (args ++ [("--target=".toList) ++ arch ++ ("-unknown-linux-musl".toList)],
       rustFlags)

/-- Translation of the static-target claim itself, stated from the spec's
words: skip entirely when the base image is neither tiny nor static, a
`--target` token is present, or the linker flags already request a static
CRT; otherwise append one target token for the mapped architecture, and for
the GNU-libc variant also extend the linker flags, space-joined. For
comparison with `AddDefaultTargetForTinyOrStatic`. -/
def specAddDefaultTarget (args : List Str) (tinyStack staticStack : Bool)
    (staticType : Str) (rustFlags : Str) (bpArch : Option Str) (goarch : Str) :
    List Str × Str :=
  if !(tinyStack || staticStack) || args.any isTargetToken ||
      goContains rustFlags ("target-feature=+crt-static".toList) then
    (args, rustFlags)
  else
    let archRaw := bpArch.getD goarch
    let arch :=
      if archRaw = ("amd64".toList) then "x86_64".toList
      else if archRaw = ("arm64".toList) then "aarch64".toList
      else archRaw
    if staticType = StaticTypeGNULIBC then
      (args ++ [("--target=".toList) ++ arch ++ ("-unknown-linux-gnu".toList)],
       if rustFlags = [] then "-C target-feature=+crt-static".toList
       else rustFlags ++ (' ' :: "-C target-feature=+crt-static".toList))
    else
      (args ++ [("--target=".toList) ++ arch ++ ("-unknown-linux-musl".toList)],
       rustFlags)

/-- `BuildArgs` (runners.go 409-426) after tokenization of
`CargoInstallArgs`: subcommand, filtered operator tokens, the engine's
`--color=never` and `--root=<destination>`, the default `--path`, and the
static-target step. Returns the argument list together with the resulting
`RUSTFLAGS` value. -/
def BuildArgs (installArgTokens : List Str) (destLayerPath defaultMemberPath : Str)
    (tinyStack staticStack : Bool) (staticType : Str) (rustFlags : Str)
    (bpArch : Option Str) (goarch : Str) : List Str × Str :=
  let envArgs := FilterInstallArgs installArgTokens
  let args := ("install".toList) ::
    (envArgs ++ [("--color=never".toList), ("--root=".toList) ++ destLayerPath])
  let args2 := AddDefaultPath args defaultMemberPath
  AddDefaultTargetForTinyOrStatic args2 tinyStack staticStack staticType
    rustFlags bpArch goarch

/-- Models `filepath.Join` from Go's standard library for already-clean path
arguments without trailing separators, the shape layer paths take. -/
def filepathJoin (a b : Str) : Str :=
  if a = [] then b else a ++ ('/' :: b)

/-- Models `sherpa.AppendToEnvVar` from the external libpak library: the
existing value of the variable (when set) followed by the new value, joined
with the delimiter. -/
def appendToEnvVar (current : Option Str) (delim : Str) (value : Str) : Str :=
  joinStr delim
    ((match current with
      | some v => [v]
      | none => []) ++ [value])

/-- The PATH-refresh step of `InstallMember` (runners.go 163-172): given the
current `PATH` value and the destination layer path, the `PATH` value in
effect when `cargo install` is launched. -/
def installMemberPATH (path : Str) (destLayerPath : Str) : Str :=
  if path ≠ [] ∧ goContains path destLayerPath = false then
    appendToEnvVar (some path) (":".toList) (filepathJoin destLayerPath ("bin".toList))
  else path

/-- A directory tree node: a plain file (or anything `os.ReadDir` reports as
a non-directory) or a directory with its immediate children. -/
inductive FsNode where
  | file : FsNode
  | dir : List (Str × FsNode) → FsNode

/-- Whether an entry is a directory, as `DirEntry.IsDir` reports. -/
def FsNode.isDir : FsNode → Bool
  | .file => false
  | .dir _ => true

/-- Replace a directory's immediate children by those satisfying `keep`
(`os.RemoveAll` on every other child). -/
def filterChildren (keep : Str × FsNode → Bool) : FsNode → FsNode
  | .file => .file
  | .dir children => .dir (children.filter keep)

/-- Retain-set test at the `$CARGO_HOME` root (runners.go 327-329): keep the
directories `bin`, `registry` and `git`; everything else is removed. -/
def keepTopLevel (e : Str × FsNode) : Bool :=
  e.2.isDir && (e.1 == ("bin".toList) || e.1 == ("registry".toList) ||
    e.1 == ("git".toList))

/-- Retain-set test under `registry/` (runners.go 345-346): keep the
directories `index` and `cache`. -/
def keepRegistryLevel (e : Str × FsNode) : Bool :=
  e.2.isDir && (e.1 == ("index".toList) || e.1 == ("cache".toList))

/-- Retain-set test under `git/` (runners.go 362): keep the directory
`db`. -/
def keepGitLevel (e : Str × FsNode) : Bool :=
  e.2.isDir && (e.1 == ("db".toList))

/-- Apply a retain-set to the children of every top-level entry called
`name`; when no such entry exists this is the no-op Go performs on
`os.IsNotExist`. -/
def pruneChildDir (name : Str) (keep : Str × FsNode → Bool)
    (entries : List (Str × FsNode)) : List (Str × FsNode) :=
  entries.map (fun e => if e.1 == name then (e.1, filterChildren keep e.2) else e)

/-- `CleanCargoHomeCache` (runners.go 317-372) on the directory tree rooted
at `$CARGO_HOME` (`none`: the path does not exist, a no-op per
`os.IsNotExist`). `os.ReadDir` on a non-directory home fails, which is the
fatal error case; after the root level is pruned, `registry` and `git` are
directories whenever they exist, so the deeper levels cannot fail. -/
def CleanCargoHomeCache : Option FsNode → Except Unit (Option FsNode)
  | none => .ok none
  | some .file => .error ()
  | some (.dir entries) =>
    let afterTop := entries.filter keepTopLevel
    let afterRegistry := pruneChildDir ("registry".toList) keepRegistryLevel afterTop
    let afterGit := pruneChildDir ("git".toList) keepGitLevel afterRegistry
    .ok (some (.dir afterGit))

/-- The version extraction of `CargoVersion` (runners.go 375-389) applied to
the captured combined output of a successful `cargo version` run:
`strings.SplitN(strings.TrimSpace(out), " ", 3)[1]`. `none` models the Go
panic (index out of range) when fewer than two fields exist. -/
def CargoVersion (combinedOutput : Str) : Option Str :=
  (splitN 3 ' ' (trimSpace combinedOutput))[1]?

/-- The version extraction of `RustVersion` (runners.go 392-406):
`strings.Split(strings.TrimSpace(out), " ")[1]`, with `none` for the Go
panic. -/
def RustVersion (combinedOutput : Str) : Option Str :=
  (splitAll ' ' (trimSpace combinedOutput))[1]?

/-! ### Lemmas about the string model -/

theorem hasPrefixB_refl (l : Str) : hasPrefixB l l = true := by
  induction l with
  | nil => rfl
  | cons c cs ih => simp [hasPrefixB, ih]

theorem hasPrefixB_append_self (p t : Str) : hasPrefixB p (p ++ t) = true := by
  induction p with
  | nil => rfl
  | cons c cs ih => simp [hasPrefixB, ih]

theorem hasPrefixB_extend {p u : Str} (h : hasPrefixB p u = true) (v : Str) :
    hasPrefixB p (u ++ v) = true := by
  induction p generalizing u with
  | nil => rfl
  | cons c cs ih =>
    cases u with
    | nil => exact absurd h (by simp [hasPrefixB])
    | cons a as =>
      simp only [hasPrefixB, Bool.and_eq_true] at h
      simp [hasPrefixB, h.1, ih h.2]

theorem goContains_of_hasPrefixB {s sub : Str} (h : hasPrefixB sub s = true) :
    goContains s sub = true := by
  unfold goContains
  rw [h]
  rfl

theorem goContains_append_self (a b : Str) : goContains (a ++ b) b = true := by
  induction a with
  | nil => exact goContains_of_hasPrefixB (hasPrefixB_refl b)
  | cons c cs ih =>
    rw [List.cons_append]
    unfold goContains
    simp [ih]

theorem breakOn_eq_none {c : Char} {s : Str} : breakOn c s = none ↔ c ∉ s := by
  induction s with
  | nil => simp [breakOn]
  | cons a as ih =>
    by_cases h : a = c
    · subst h
      simp [breakOn]
    · simp [breakOn, h, Option.map_eq_none', ih, Ne.symm h]

theorem breakOn_append {c : Char} {p : Str} (h : c ∉ p) (q : Str) :
    breakOn c (p ++ c :: q) = some (p, q) := by
  induction p with
  | nil => simp [breakOn]
  | cons a as ih =>
    simp only [List.mem_cons, not_or] at h
    have hac : ¬a = c := fun hh => h.1 hh.symm
    simp [breakOn, hac, ih h.2]

theorem breakOn_eq_some {c : Char} {s p q : Str} (h : breakOn c s = some (p, q)) :
    s = p ++ c :: q ∧ c ∉ p := by
  induction s generalizing p q with
  | nil => simp [breakOn] at h
  | cons a as ih =>
    by_cases hc : a = c
    · subst hc
      have hval : breakOn a (a :: as) = some ([], as) := by simp [breakOn]
      rw [hval] at h
      injection h with h'
      cases h'
      simp
    · simp only [breakOn, if_neg hc, Option.map_eq_some'] at h
      obtain ⟨⟨p', q'⟩, hbo, heq⟩ := h
      cases heq
      obtain ⟨hs, hnp⟩ := ih hbo
      subst hs
      refine ⟨rfl, ?_⟩
      simp only [List.mem_cons, not_or]
      exact ⟨fun hh => hc hh.symm, hnp⟩

theorem splitAll_ne_nil (c : Char) (s : Str) : splitAll c s ≠ [] := by
  cases s with
  | nil => simp [splitAll]
  | cons a as =>
    by_cases h : a = c
    · simp [splitAll, h]
    · simp only [splitAll, if_neg h]
      cases splitAll c as <;> simp

theorem splitAll_of_not_mem {c : Char} {s : Str} (h : c ∉ s) : splitAll c s = [s] := by
  induction s with
  | nil => rfl
  | cons a as ih =>
    simp only [List.mem_cons, not_or] at h
    simp [splitAll, Ne.symm h.1, ih h.2]

theorem length_splitAll_eq_one {c : Char} {s : Str} :
    (splitAll c s).length = 1 ↔ c ∉ s := by
  induction s with
  | nil => simp [splitAll]
  | cons a as ih =>
    by_cases h : a = c
    · subst h
      have hpos : 0 < (splitAll a as).length :=
        List.length_pos.mpr (splitAll_ne_nil a as)
      have hne : (splitAll a as).length + 1 ≠ 1 := by omega
      simp only [splitAll, if_pos rfl, List.length_cons]
      constructor
      · intro hlen
        exact absurd hlen hne
      · intro hmem
        exact absurd (List.mem_cons_self a as) hmem
    · rcases hsa : splitAll c as with _ | ⟨r, rs⟩
      · exact absurd hsa (splitAll_ne_nil c as)
      · rw [hsa] at ih
        simp only [splitAll, if_neg h, hsa, List.length_cons] at ih ⊢
        constructor
        · intro hlen
          simp only [List.mem_cons, not_or]
          exact ⟨fun hh => h hh.symm, ih.mp hlen⟩
        · intro hmem
          simp only [List.mem_cons, not_or] at hmem
          exact ih.mpr hmem.2

theorem lastIndexInt_of_not_mem {c : Char} {s : Str} (h : c ∉ s) :
    lastIndexInt c s = -1 := by
  induction s with
  | nil => rfl
  | cons a as ih =>
    simp only [List.mem_cons, not_or] at h
    have hac : ¬a = c := fun hh => h.1 hh.symm
    simp [lastIndexInt, ih h.2, hac]

theorem lastIndexInt_append {c : Char} {seg : Str} (h : c ∉ seg) (loc : Str) :
    lastIndexInt c (loc ++ c :: seg) = (loc.length : Int) := by
  induction loc with
  | nil => norm_num [lastIndexInt, lastIndexInt_of_not_mem h]
  | cons a as ih =>
    rw [List.cons_append, lastIndexInt]
    simp only [ih]
    rw [if_pos (Int.natCast_nonneg _)]
    rw [List.length_cons]
    push_cast
    ring

theorem trimSuffixStr_concat (c : Char) (s : Str) :
    trimSuffixStr [c] (s ++ [c]) = s := by
  have hs : hasSuffixB [c] (s ++ [c]) = true := by
    simp [hasSuffixB, hasPrefixB]
  simp only [trimSuffixStr, hs, if_true, List.length_append, List.length_cons,
    List.length_nil]
  rw [List.take_left' (by simp)]

/-! ### Lemmas about splitN -/

theorem splitN_no_sep {n : Nat} {c : Char} {s : Str} (h : breakOn c s = none) :
    splitN (n + 2) c s = [s] := by
  show (match breakOn c s with
    | none => [s]
    | some (p, q) => p :: splitN (n + 1) c q) = [s]
  rw [h]

theorem splitN_three_one_sep {c : Char} {s p q : Str} (h1 : breakOn c s = some (p, q))
    (h2 : breakOn c q = none) : splitN 3 c s = [p, q] := by
  show (match breakOn c s with
    | none => [s]
    | some (p, q) => p :: splitN 2 c q) = [p, q]
  rw [h1]
  show p :: (match breakOn c q with
    | none => [q]
    | some (u, v) => u :: splitN 1 c v) = [p, q]
  rw [h2]

theorem splitN_three_two_seps {c : Char} {s p q u v : Str}
    (h1 : breakOn c s = some (p, q)) (h2 : breakOn c q = some (u, v)) :
    splitN 3 c s = [p, u, v] := by
  show (match breakOn c s with
    | none => [s]
    | some (p, q) => p :: splitN 2 c q) = [p, u, v]
  rw [h1]
  show p :: (match breakOn c q with
    | none => [q]
    | some (u, v) => u :: splitN 1 c v) = [p, u, v]
  rw [h2]
  rfl

theorem rdropWhile_append_eq (p : Char → Bool) (l : Str) :
    List.rdropWhile p l ++ (l.reverse.takeWhile p).reverse = l := by
  rw [List.rdropWhile, ← List.reverse_append, List.takeWhile_append_dropWhile,
    List.reverse_reverse]

theorem trimSpace_eq_rdropWhile (l : Str) :
    trimSpace l = List.rdropWhile isGoSpace (l.dropWhile isGoSpace) := rfl

theorem dropWhile_eq_cons_false {p : Char → Bool} {x : Char} {l : Str}
    (h : List.dropWhile p (x :: l) = x :: l) : p x = false := by
  by_cases hx : p x = true
  · rw [List.dropWhile_cons_of_pos hx] at h
    have hle : (List.dropWhile p l).length ≤ l.length :=
      List.IsSuffix.length_le (List.dropWhile_suffix p)
    have hlen := congrArg List.length h
    simp only [List.length_cons] at hlen
    omega
  · cases hpx : p x
    · rfl
    · exact absurd hpx hx

theorem trimSpace_trimSpace (s : Str) : trimSpace (trimSpace s) = trimSpace s := by
  rw [trimSpace_eq_rdropWhile, trimSpace_eq_rdropWhile]
  have hdw : List.dropWhile isGoSpace
      (List.rdropWhile isGoSpace (s.dropWhile isGoSpace)) =
      List.rdropWhile isGoSpace (s.dropWhile isGoSpace) := by
    rcases hL : List.rdropWhile isGoSpace (s.dropWhile isGoSpace) with _ | ⟨x, xs⟩
    · simp
    · have hsplit := rdropWhile_append_eq isGoSpace (s.dropWhile isGoSpace)
      rw [hL] at hsplit
      have ht' : List.dropWhile isGoSpace (s.dropWhile isGoSpace) =
          s.dropWhile isGoSpace := List.dropWhile_idempotent _ _
      rw [← hsplit, List.cons_append] at ht'
      have hx := dropWhile_eq_cons_false ht'
      rw [List.dropWhile_cons_of_neg (by simp [hx])]
  rw [hdw, List.rdropWhile_idempotent]

theorem legacyThird (url : Str) :
    trimSuffixStr (")".toList) (trimPrefixStr ("(".toList) ('(' :: (url ++ [')']))) = url := by
  have h1 : trimPrefixStr ("(".toList) ('(' :: (url ++ [')'])) = url ++ [')'] := by
    show trimPrefixStr ['('] ('(' :: (url ++ [')'])) = url ++ [')']
    simp [trimPrefixStr, hasPrefixB]
  rw [h1]
  show trimSuffixStr [')'] (url ++ [')']) = url
  exact trimSuffixStr_concat ')' url

/-! ### The claims -/

theorem bool_false_ne_true {b : Bool} (h : b = false) : ¬b = true := by
  intro hc
  rw [hc] at h
  exact Bool.noConfusion h

/-- C1: a malformed workspace-member identifier — one that carries the
`path+file://` scheme but no `#`, or one that lacks the scheme and contains
fewer than two spaces (hence does not split into three space-separated
fields) — always makes `ParseWorkspaceMember` return a `ParseError` carrying
that input, and never any name/version/location values. -/
theorem parseWorkspaceMember_malformed (s : Str) :
    (hasPrefixB ("path+file://".toList) s = true → '#' ∉ s →
      ParseWorkspaceMember s = .error (.missingHash s)) ∧
    (hasPrefixB ("path+file://".toList) s = false → s.count ' ' < 2 →
      ParseWorkspaceMember s = .error (.unexpectedFormat s)) := by
  constructor
  · intro hp hmem
    unfold ParseWorkspaceMember
    rw [if_pos hp, breakOn_eq_none.mpr hmem]
  · intro hp hcount
    have hneg := bool_false_ne_true hp
    rcases h1 : breakOn ' ' s with _ | ⟨p, q⟩
    · have h3 : splitN 3 ' ' s = [s] := splitN_no_sep h1
      unfold ParseWorkspaceMember
      rw [if_neg hneg, h3]
    · obtain ⟨hs, hnp⟩ := breakOn_eq_some h1
      subst hs
      have hcnt2 : q.count ' ' = 0 := by
        rw [List.count_append, List.count_cons] at hcount
        simp at hcount
        omega
      have hq : ' ' ∉ q := List.count_eq_zero.mp hcnt2
      have h3 : splitN 3 ' ' (p ++ ' ' :: q) = [p, q] :=
        splitN_three_one_sep h1 (breakOn_eq_none.mpr hq)
      unfold ParseWorkspaceMember
      rw [if_neg hneg, h3]

/-- Witness for C1 at two concrete malformed identifiers. -/
theorem parseWorkspaceMember_malformed_witness :
    ParseWorkspaceMember ("path+file:///x".toList) =
      .error (.missingHash ("path+file:///x".toList)) ∧
    ParseWorkspaceMember ("xyz".toList) =
      .error (.unexpectedFormat ("xyz".toList)) :=
  ⟨(parseWorkspaceMember_malformed ("path+file:///x".toList)).1 (by decide) (by decide),
   (parseWorkspaceMember_malformed ("xyz".toList)).2 (by decide) (by decide)⟩

/-- Counterexample for C2 as stated: the third returned field is not trimmed
of surrounding whitespace (`" u "` comes back as-is, not as `"u"`), and a
leading space in the name shifts all three fields, so the claim's prediction
`("n", "1.0", "u")` is refuted on both inputs. -/
theorem parseWorkspaceMember_legacy_counterexample :
    ParseWorkspaceMember ("n 1.0 ( u )".toList) =
      .ok ("n".toList, "1.0".toList, " u ".toList) ∧
    ParseWorkspaceMember ("n 1.0 ( u )".toList) ≠
      .ok ("n".toList, "1.0".toList, "u".toList) ∧
    trimSpace (" u ".toList) ≠ " u ".toList ∧
    ParseWorkspaceMember (" n 1.0 (u)".toList) =
      .ok ([], "n".toList, "1.0 (u".toList) := by
  refine ⟨by decide, by decide, by decide, by decide⟩

/-- C2 (amended): for a legacy identifier `name version (url)` whose name and
version contain no space characters and which does not carry the
`path+file://` scheme, `ParseWorkspaceMember` succeeds with the name and
version trimmed of surrounding whitespace and the url with its surrounding
parentheses stripped — the url field is returned without whitespace
trimming. -/
theorem parseWorkspaceMember_legacy (name version url : Str)
    (hn : ' ' ∉ name) (hv : ' ' ∉ version)
    (hp : hasPrefixB ("path+file://".toList)
      (name ++ ' ' :: (version ++ ' ' :: ('(' :: (url ++ [')'])))) = false) :
    ParseWorkspaceMember (name ++ ' ' :: (version ++ ' ' :: ('(' :: (url ++ [')'])))) =
      .ok (trimSpace name, trimSpace version, url) := by
  have h1 : breakOn ' ' (name ++ ' ' :: (version ++ ' ' :: ('(' :: (url ++ [')'])))) =
      some (name, version ++ ' ' :: ('(' :: (url ++ [')']))) := breakOn_append hn _
  have h2 : breakOn ' ' (version ++ ' ' :: ('(' :: (url ++ [')']))) =
      some (version, '(' :: (url ++ [')'])) := breakOn_append hv _
  have h3 := splitN_three_two_seps h1 h2
  unfold ParseWorkspaceMember
  rw [if_neg (bool_false_ne_true hp), h3]
  show Except.ok (trimSpace name, trimSpace version,
    trimSuffixStr (")".toList) (trimPrefixStr ("(".toList) ('(' :: (url ++ [')'])))) =
    Except.ok (trimSpace name, trimSpace version, url)
  rw [legacyThird]

/-- Witness for C2 (amended) at a concrete legacy identifier whose url part
carries surrounding whitespace. -/
theorem parseWorkspaceMember_legacy_witness :
    ParseWorkspaceMember ("mylib 0.1.0 ( u )".toList) =
      .ok ("mylib".toList, "0.1.0".toList, " u ".toList) :=
  parseWorkspaceMember_legacy ("mylib".toList) ("0.1.0".toList) (" u ".toList)
    (by decide) (by decide) (by decide)

/-- Counterexample for C3 as stated: on a fragment with whitespace around the
name, the parser does not return the raw text before the `@` (`" n"`) but its
trimmed form (`"n"`), so every returned field is trimmed and the untrimmed
prediction is refuted. -/
theorem parseWorkspaceMember_urlFragment_counterexample :
    ParseWorkspaceMember ("path+file:///r# n@v".toList) ≠
      .ok (" n".toList, "v".toList, "path+file:///r".toList) ∧
    ParseWorkspaceMember ("path+file:///r# n@v".toList) =
      .ok ("n".toList, "v".toList, "path+file:///r".toList) := by
  refine ⟨by decide, by decide⟩

/-- C3 (amended): a URL-fragment identifier whose fragment contains `@`
parses to (text before the first `@` of the fragment, text after it, URL
portion before the `#`), and one whose fragment lacks `@` parses to (final
`/`-delimited segment of the URL portion, fragment, URL portion with that
final segment removed) — each returned field additionally trimmed of
surrounding whitespace, which leaves the two concrete example identifiers
exactly as the claim lists them. -/
theorem parseWorkspaceMember_urlFragment :
    (∀ url a b : Str, hasPrefixB ("path+file://".toList) url = true →
      '#' ∉ url → '@' ∉ a →
      ParseWorkspaceMember (url ++ '#' :: (a ++ '@' :: b)) =
        .ok (trimSpace a, trimSpace b, trimSpace url)) ∧
    (∀ loc seg frag : Str, hasPrefixB ("path+file://".toList) (loc ++ '/' :: seg) = true →
      '#' ∉ loc → '#' ∉ seg → '/' ∉ seg → '@' ∉ frag →
      ParseWorkspaceMember ((loc ++ '/' :: seg) ++ '#' :: frag) =
        .ok (trimSpace seg, trimSpace frag, trimSpace loc)) ∧
    ParseWorkspaceMember ("path+file:///home/u/ws#pkg@1.2.3".toList) =
      .ok ("pkg".toList, "1.2.3".toList, "path+file:///home/u/ws".toList) ∧
    ParseWorkspaceMember ("path+file:///home/u/ws/services/example#0.4.0".toList) =
      .ok ("example".toList, "0.4.0".toList, "path+file:///home/u/ws/services".toList) := by
  refine ⟨?_, ?_, by decide, by decide⟩
  · intro url a b hu hhash hat
    have hp : hasPrefixB ("path+file://".toList) (url ++ '#' :: (a ++ '@' :: b)) = true :=
      hasPrefixB_extend hu _
    have h1 : breakOn '#' (url ++ '#' :: (a ++ '@' :: b)) = some (url, a ++ '@' :: b) :=
      breakOn_append hhash _
    have h2 : breakOn '@' (a ++ '@' :: b) = some (a, b) := breakOn_append hat _
    unfold ParseWorkspaceMember
    rw [if_pos hp, h1]
    simp only [h2]
  · intro loc seg frag hu hl hs hsl hat
    have hp : hasPrefixB ("path+file://".toList) ((loc ++ '/' :: seg) ++ '#' :: frag) = true :=
      hasPrefixB_extend hu _
    have hnm : '#' ∉ loc ++ '/' :: seg := by
      intro hmem
      rcases List.mem_append.mp hmem with h | h
      · exact hl h
      · rcases List.mem_cons.mp h with h' | h'
        · exact absurd h' (by decide)
        · exact hs h'
    have h1 : breakOn '#' ((loc ++ '/' :: seg) ++ '#' :: frag) =
        some (loc ++ '/' :: seg, frag) := breakOn_append hnm _
    have h2 : breakOn '@' frag = none := breakOn_eq_none.mpr hat
    have hli : lastIndexInt '/' (loc ++ '/' :: seg) = (loc.length : Int) :=
      lastIndexInt_append hsl loc
    have htake : (loc ++ '/' :: seg).take ((loc.length : Int)).toNat = loc := by
      rw [Int.toNat_natCast]
      exact List.take_left' rfl
    have hdrop : (loc ++ '/' :: seg).drop (((loc.length : Int)) + 1).toNat = seg := by
      have hcast : (((loc.length : Int)) + 1).toNat = loc.length + 1 := by omega
      rw [hcast]
      have hassoc : loc ++ '/' :: seg = (loc ++ ['/']) ++ seg := by simp
      rw [hassoc]
      exact List.drop_left' (by simp)
    unfold ParseWorkspaceMember
    rw [if_pos hp, h1]
    simp only [h2, hli, htake, hdrop]

/-- Witness for C3 (amended) at one identifier of each fragment shape,
with whitespace exercising the trimming. -/
theorem parseWorkspaceMember_urlFragment_witness :
    ParseWorkspaceMember ("path+file:///a# n@v ".toList) =
      .ok ("n".toList, "v".toList, "path+file:///a".toList) ∧
    ParseWorkspaceMember ("path+file:///h/pkg# 1.0".toList) =
      .ok ("pkg".toList, "1.0".toList, "path+file:///h".toList) :=
  ⟨parseWorkspaceMember_urlFragment.1 ("path+file:///a".toList) (" n".toList)
      ("v ".toList) (by decide) (by decide) (by decide),
   parseWorkspaceMember_urlFragment.2.1 ("path+file:///h".toList) ("pkg".toList)
      (" 1.0".toList) (by decide) (by decide) (by decide) (by decide) (by decide)⟩

theorem goContains_single {s : Str} {c : Char} : goContains s [c] = true ↔ c ∈ s := by
  induction s with
  | nil => simp [goContains, hasPrefixB]
  | cons a as ih =>
    unfold goContains
    simp [hasPrefixB, ih, List.mem_cons]

theorem memberKeep_eq_spec (cfg c : Str) : memberKeep cfg c = specMemberKeep cfg c := by
  by_cases hc : cfg = []
  · subst hc
    simp [memberKeep, specMemberKeep, makeFilterMap]
  · have hsal : 0 < (splitAll ',' cfg).length :=
      List.length_pos.mpr (splitAll_ne_nil ',' cfg)
    by_cases hcomma : goContains cfg ([','] : Str) = true
    · rw [Bool.eq_iff_iff]
      simp [memberKeep, specMemberKeep, makeFilterMap, hc, hcomma, hsal,
        splitAll_ne_nil ',' cfg, List.contains]
    · have hnc : ',' ∉ cfg := by
        intro hmem
        exact hcomma (goContains_single.mpr hmem)
      have hsplit : splitAll ',' cfg = [cfg] := splitAll_of_not_mem hnc
      rw [Bool.eq_iff_iff]
      simp [memberKeep, specMemberKeep, makeFilterMap, hc, hcomma, hsplit,
        List.contains]
      intro h
      rw [← h]
      exact (trimSpace_trimSpace c).symm

/-- C4: the member filter keeps exactly the candidates whose trimmed name
equals some trimmed comma-separated entry of the configuration — an empty
configuration keeps everything, a configuration without a comma acts as one
single name, and matching is exact and case-sensitive; in particular
configuration `"a, b"` against candidates `["a","b","c"]` yields
`["a","b"]`. -/
theorem workspaceMembersFilter_spec :
    (∀ (cfg : Str) (cands : List Str),
      WorkspaceMembersFilter cfg cands = cands.filter (specMemberKeep cfg)) ∧
    WorkspaceMembersFilter ("a, b".toList) ["a".toList, "b".toList, "c".toList] =
      ["a".toList, "b".toList] := by
  refine ⟨?_, by decide⟩
  intro cfg cands
  unfold WorkspaceMembersFilter
  exact List.filter_congr (fun c _ => memberKeep_eq_spec cfg c)

theorem or_eq_false_parts {x y : Bool} (h : ¬(x || y) = true) :
    x = false ∧ y = false := by
  cases x <;> cases y <;> simp_all

theorem isRootToken_rootEq (d : Str) :
    isRootToken ('-' :: '-' :: 'r' :: 'o' :: 'o' :: 't' :: '=' :: d) = true := rfl

theorem isRootToken_colorNever :
    isRootToken ['-', '-', 'c', 'o', 'l', 'o', 'r', '=', 'n', 'e', 'v', 'e', 'r'] = false := rfl

theorem isRootToken_install :
    isRootToken ['i', 'n', 's', 't', 'a', 'l', 'l'] = false := rfl

theorem isRootToken_pathEq (d : Str) :
    isRootToken ('-' :: '-' :: 'p' :: 'a' :: 't' :: 'h' :: '=' :: d) = false := rfl

theorem isRootToken_targetEq (x : Str) :
    isRootToken ('-' :: '-' :: 't' :: 'a' :: 'r' :: 'g' :: 'e' :: 't' :: '=' :: x) = false := rfl

theorem isColorToken_colorNever :
    isColorToken ['-', '-', 'c', 'o', 'l', 'o', 'r', '=', 'n', 'e', 'v', 'e', 'r'] = true := rfl

theorem isColorToken_rootEq (d : Str) :
    isColorToken ('-' :: '-' :: 'r' :: 'o' :: 'o' :: 't' :: '=' :: d) = false := rfl

theorem isColorToken_install :
    isColorToken ['i', 'n', 's', 't', 'a', 'l', 'l'] = false := rfl

theorem isColorToken_pathEq (d : Str) :
    isColorToken ('-' :: '-' :: 'p' :: 'a' :: 't' :: 'h' :: '=' :: d) = false := rfl

theorem isColorToken_targetEq (x : Str) :
    isColorToken ('-' :: '-' :: 't' :: 'a' :: 'r' :: 'g' :: 'e' :: 't' :: '=' :: x) = false := rfl

theorem filterArgsGo_no_root_color (skip : Bool) (l : List Str) :
    (filterArgsGo skip l).countP isRootToken = 0 ∧
    (filterArgsGo skip l).countP isColorToken = 0 := by
  induction l generalizing skip with
  | nil => cases skip <;> simp [filterArgsGo]
  | cons a rest ih =>
    cases skip
    · by_cases h1 : (a == ("--root".toList) || a == ("--color".toList)) = true
      · simp only [filterArgsGo, if_pos h1]
        exact ih true
      · by_cases h2 : (hasPrefixB ("--root=".toList) a ||
            hasPrefixB ("--color=".toList) a) = true
        · simp only [filterArgsGo, if_neg h1, if_pos h2]
          exact ih false
        · simp only [filterArgsGo, if_neg h1, if_neg h2]
          have hr : isRootToken a = false := by
            unfold isRootToken
            rw [(or_eq_false_parts h1).1, (or_eq_false_parts h2).1]
            rfl
          have hc : isColorToken a = false := by
            unfold isColorToken
            rw [(or_eq_false_parts h1).2, (or_eq_false_parts h2).2]
            rfl
          simp [List.countP_cons, hr, hc, (ih false).1, (ih false).2]
    · simp only [filterArgsGo]
      exact ih false

theorem countP_addDefaultPath (p : Str → Bool) (args : List Str) (d : Str)
    (hp : p ('-' :: '-' :: 'p' :: 'a' :: 't' :: 'h' :: '=' :: d) = false) :
    (AddDefaultPath args d).countP p = args.countP p := by
  unfold AddDefaultPath
  split
  · rfl
  · simp [List.countP_append, hp]

theorem countP_addDefaultTarget (p : Str → Bool) (args : List Str)
    (tiny staticS : Bool) (stype rf : Str) (bpA : Option Str) (go : Str)
    (hm : ∀ x : Str, p ('-' :: '-' :: 't' :: 'a' :: 'r' :: 'g' :: 'e' :: 't' :: '=' :: x) = false) :
    ((AddDefaultTargetForTinyOrStatic args tiny staticS stype rf bpA go).1).countP p =
      args.countP p := by
  unfold AddDefaultTargetForTinyOrStatic
  split
  · rfl
  · split
    · rfl
    · split
      · rfl
      · split
        · simp [List.countP_append, List.append_assoc, hm]
        · simp [List.countP_append, List.append_assoc, hm]

/-- C5: for every operator-supplied token list and every environment, the
argument list produced by `BuildArgs` contains exactly one `--root`-setting
token and exactly one `--color`-setting token (the engine-appended
`--root=<destination>` and `--color=never`), and `FilterInstallArgs` strips a
bare `--root`/`--color` together with its following value token. -/
theorem buildArgs_unique_root_color :
    (∀ (tokens : List Str) (dest defPath : Str) (tiny staticS : Bool)
      (stype rf : Str) (bpA : Option Str) (go : Str),
      ((BuildArgs tokens dest defPath tiny staticS stype rf bpA go).1).countP
          isRootToken = 1 ∧
      ((BuildArgs tokens dest defPath tiny staticS stype rf bpA go).1).countP
          isColorToken = 1) ∧
    (∀ (v : Str) (rest : List Str),
      FilterInstallArgs (("--root".toList) :: v :: rest) = FilterInstallArgs rest) ∧
    (∀ (v : Str) (rest : List Str),
      FilterInstallArgs (("--color".toList) :: v :: rest) = FilterInstallArgs rest) := by
  refine ⟨?_, ?_, ?_⟩
  · intro tokens dest defPath tiny staticS stype rf bpA go
    unfold BuildArgs
    constructor
    · rw [countP_addDefaultTarget _ _ _ _ _ _ _ _ isRootToken_targetEq,
        countP_addDefaultPath _ _ _ (isRootToken_pathEq defPath)]
      simp [List.countP_cons, List.countP_append, FilterInstallArgs,
        isRootToken_install, isRootToken_colorNever, isRootToken_rootEq,
        (filterArgsGo_no_root_color false tokens).1]
    · rw [countP_addDefaultTarget _ _ _ _ _ _ _ _ isColorToken_targetEq,
        countP_addDefaultPath _ _ _ (isColorToken_pathEq defPath)]
      simp [List.countP_cons, List.countP_append, FilterInstallArgs,
        isColorToken_install, isColorToken_colorNever, isColorToken_rootEq,
        (filterArgsGo_no_root_color false tokens).2]
  · intro v rest
    unfold FilterInstallArgs
    simp only [filterArgsGo]
    rw [if_pos (by simp)]
  · intro v rest
    unfold FilterInstallArgs
    simp only [filterArgsGo]
    rw [if_pos (by simp)]

/-- C6: for operator argument string `--release --root=/old` on a base image
that is neither tiny nor static, destination `/dest` and default member path
`.`, `BuildArgs` returns exactly
`["install","--release","--color=never","--root=/dest","--path=."]` —
subcommand, filtered operator tokens, the engine's color and root settings,
and the default `--path` appended because no `--path` token was present. -/
theorem buildArgs_example :
    (BuildArgs (tokenizeSimple ("--release --root=/old".toList)) ("/dest".toList)
      (".".toList) false false StaticTypeMUSLC [] none ("amd64".toList)).1 =
      ["install".toList, "--release".toList, "--color=never".toList,
       "--root=/dest".toList, "--path=.".toList] := by decide

/-- C7: `AddDefaultTargetForTinyOrStatic` behaves exactly as the claim
describes (`specAddDefaultTarget`): unchanged argument list and linker flags
when the base image is neither tiny nor static, a `--target` token is
already present, or the linker flags already contain
`target-feature=+crt-static`; otherwise exactly one appended
`--target=<arch>-unknown-linux-musl` token, or for the GNU-libc selector one
`--target=<arch>-unknown-linux-gnu` token plus the space-joined crt-static
linker flag, with the architecture override taking precedence over the
runtime architecture and amd64/arm64 mapped to x86_64/aarch64. -/
theorem addDefaultTarget_spec (args : List Str) (tiny staticS : Bool)
    (stype rf : Str) (bpA : Option Str) (go : Str) :
    AddDefaultTargetForTinyOrStatic args tiny staticS stype rf bpA go =
      specAddDefaultTarget args tiny staticS stype rf bpA go := by
  unfold AddDefaultTargetForTinyOrStatic specAddDefaultTarget archFromSystem
  rw [Bool.not_or]
  by_cases h1 : (!tiny && !staticS) = true
  · rw [if_pos h1, if_pos (by rw [h1]; rfl)]
  · have h1f : (!tiny && !staticS) = false := by
      revert h1
      cases (!tiny && !staticS) <;> simp
    rw [if_neg h1]
    by_cases h2 : args.any isTargetToken = true
    · rw [if_pos h2, if_pos (by rw [h1f, h2]; rfl)]
    · have h2f : args.any isTargetToken = false := by
        revert h2
        cases args.any isTargetToken <;> simp
      rw [if_neg h2]
      by_cases h3 : goContains rf ("target-feature=+crt-static".toList) = true
      · rw [if_pos h3, if_pos (by rw [h1f, h2f, h3]; rfl)]
      · have h3f : goContains rf ("target-feature=+crt-static".toList) = false := by
          revert h3
          cases goContains rf ("target-feature=+crt-static".toList) <;> simp
        rw [if_neg h3, if_neg (bool_false_ne_true (by rw [h1f, h2f, h3f]; rfl))]
        by_cases hst : stype = StaticTypeGNULIBC
        · cases rf with
          | nil => simp [hst, joinStr]
          | cons rh rt => simp [hst, joinStr, List.append_assoc]
        · simp [hst]

theorem appendToEnvVar_some (p v : Str) :
    appendToEnvVar (some p) (":".toList) v = p ++ ':' :: v := by
  simp [appendToEnvVar, joinStr, List.append_assoc]

/-- Counterexample for C8 as stated: with search path `/dest` and layer path
`/dest`, the destination's executable directory `/dest/bin` is absent from
the search path, yet `InstallMember` leaves the path unchanged (the code
tests substring containment of the layer path, not of its bin
subdirectory); with an empty search path it also appends nothing. -/
theorem installMemberPATH_counterexample :
    installMemberPATH ("/dest".toList) ("/dest".toList) = "/dest".toList ∧
    goContains ("/dest".toList) ("/dest/bin".toList) = false ∧
    installMemberPATH ([] : Str) ("/dest".toList) = [] := by
  refine ⟨by decide, by decide, by decide⟩

/-- C8 (amended): the PATH refresh of `InstallMember` appends the layer's
bin directory exactly when the current search path is nonempty and does not
contain the layer path itself as a substring; it leaves the search path
unchanged when it is empty or already contains the layer path as a substring
(even if the bin subdirectory is absent). When it appends, it appends rather
than replaces, and the bin directory then occurs in the new value. -/
theorem installMemberPATH_spec (p d : Str) :
    ((p = [] ∨ goContains p d = true) → installMemberPATH p d = p) ∧
    (p ≠ [] → goContains p d = false →
      installMemberPATH p d = p ++ ':' :: filepathJoin d ("bin".toList) ∧
      goContains (installMemberPATH p d) (filepathJoin d ("bin".toList)) = true) := by
  constructor
  · rintro (h | h)
    · simp [installMemberPATH, h]
    · simp [installMemberPATH, h]
  · intro hne hnc
    have hcond : p ≠ [] ∧ goContains p d = false := ⟨hne, hnc⟩
    have heq : installMemberPATH p d = p ++ ':' :: filepathJoin d ("bin".toList) := by
      unfold installMemberPATH
      rw [if_pos hcond]
      exact appendToEnvVar_some p (filepathJoin d ("bin".toList))
    refine ⟨heq, ?_⟩
    rw [heq]
    have hassoc : p ++ ':' :: filepathJoin d ("bin".toList) =
        (p ++ [':']) ++ filepathJoin d ("bin".toList) := by simp
    rw [hassoc]
    exact goContains_append_self _ _

/-- Witness for C8 (amended): an append case with the bin directory ending
up in the search path, and the unchanged empty-path case. -/
theorem installMemberPATH_spec_witness :
    installMemberPATH ("/usr/bin".toList) ("/layers/cargo".toList) =
      "/usr/bin:/layers/cargo/bin".toList ∧
    goContains (installMemberPATH ("/usr/bin".toList) ("/layers/cargo".toList))
      ("/layers/cargo/bin".toList) = true ∧
    installMemberPATH ([] : Str) ("/layers/cargo".toList) = [] :=
  ⟨((installMemberPATH_spec ("/usr/bin".toList) ("/layers/cargo".toList)).2
      (by decide) (by decide)).1,
   ((installMemberPATH_spec ("/usr/bin".toList) ("/layers/cargo".toList)).2
      (by decide) (by decide)).2,
   (installMemberPATH_spec ([] : Str) ("/layers/cargo".toList)).1 (Or.inl rfl)⟩

theorem filterChildren_isDir (k : Str × FsNode → Bool) (n : FsNode) :
    (filterChildren k n).isDir = n.isDir := by
  cases n <;> rfl

theorem filterChildren_idem (k : Str × FsNode → Bool) (n : FsNode) :
    filterChildren k (filterChildren k n) = filterChildren k n := by
  cases n with
  | file => rfl
  | dir l => simp [filterChildren, List.filter_filter, Bool.and_self]

theorem keepTopLevel_after (name : Str) (k : Str × FsNode → Bool)
    (e : Str × FsNode) (h : keepTopLevel e = true) :
    keepTopLevel (if e.1 == name then (e.1, filterChildren k e.2) else e) = true := by
  by_cases hn : (e.1 == name) = true
  · rw [if_pos hn]
    simp only [keepTopLevel, filterChildren_isDir] at h ⊢
    exact h
  · rw [if_neg hn]
    exact h

theorem pruneChildDir_idem (name : Str) (k : Str × FsNode → Bool)
    (l : List (Str × FsNode)) :
    pruneChildDir name k (pruneChildDir name k l) = pruneChildDir name k l := by
  unfold pruneChildDir
  rw [List.map_map]
  apply List.map_congr_left
  intro e _
  simp only [Function.comp]
  by_cases h : (e.1 == name) = true
  · simp [h, filterChildren_idem]
  · simp [h]

theorem prune_reg_git_reg (l : List (Str × FsNode)) :
    pruneChildDir ("registry".toList) keepRegistryLevel
      (pruneChildDir ("git".toList) keepGitLevel
        (pruneChildDir ("registry".toList) keepRegistryLevel l)) =
    pruneChildDir ("git".toList) keepGitLevel
      (pruneChildDir ("registry".toList) keepRegistryLevel l) := by
  unfold pruneChildDir
  rw [List.map_map, List.map_map, List.map_map]
  apply List.map_congr_left
  intro e _
  simp only [Function.comp]
  by_cases hr : (e.1 == ("registry".toList)) = true
  · have hrs : e.1 = ("registry".toList) := eq_of_beq hr
    have hx : ((['r', 'e', 'g', 'i', 's', 't', 'r', 'y'] : Str) == ['g', 'i', 't']) = false := rfl
    simp [hr, hrs, hx, filterChildren_idem]
  · have hr' : ¬(e.1 = (['r', 'e', 'g', 'i', 's', 't', 'r', 'y'] : Str)) :=
      fun hh => hr (by rw [hh]; rfl)
    by_cases hg : (e.1 == ("git".toList)) = true
    · have hgs : e.1 = (['g', 'i', 't'] : Str) := eq_of_beq hg
      simp [hr', hgs, (by decide : ¬((['g', 'i', 't'] : Str) = ['r', 'e', 'g', 'i', 's', 't', 'r', 'y']))]
    · have hg' : ¬(e.1 = (['g', 'i', 't'] : Str)) := fun hh => hg (by rw [hh]; rfl)
      simp [hr', hg']

theorem cleanCargoHomeCache_dir (entries : List (Str × FsNode)) :
    CleanCargoHomeCache (some (.dir entries)) =
      .ok (some (.dir (pruneChildDir ("git".toList) keepGitLevel
        (pruneChildDir ("registry".toList) keepRegistryLevel
          (entries.filter keepTopLevel))))) := rfl

/-- C9: cache pruning is idempotent — whenever one run of
`CleanCargoHomeCache` succeeds on some starting tree, a second run on the
resulting tree succeeds and removes nothing, because each of the three
levels keeps exactly the immediate children inside its retain-set and the
first run already removed the rest. -/
theorem cleanCargoHomeCache_idempotent (home t : Option FsNode)
    (h : CleanCargoHomeCache home = .ok t) :
    CleanCargoHomeCache t = .ok t := by
  rcases home with _ | node
  · have ht := Except.ok.inj h
    subst ht
    rfl
  · rcases node with _ | entries
    · exact absurd h (by simp [CleanCargoHomeCache])
    · rw [cleanCargoHomeCache_dir] at h
      have ht := Except.ok.inj h
      subst ht
      have hfil : (pruneChildDir ("git".toList) keepGitLevel
          (pruneChildDir ("registry".toList) keepRegistryLevel
            (entries.filter keepTopLevel))).filter keepTopLevel =
          pruneChildDir ("git".toList) keepGitLevel
            (pruneChildDir ("registry".toList) keepRegistryLevel
              (entries.filter keepTopLevel)) := by
        apply List.filter_eq_self.mpr
        intro e he
        unfold pruneChildDir at he
        obtain ⟨e1, he1, rfl⟩ := List.mem_map.mp he
        obtain ⟨e0, he0, rfl⟩ := List.mem_map.mp he1
        have h0 : keepTopLevel e0 = true := (List.mem_filter.mp he0).2
        exact keepTopLevel_after _ _ _ (keepTopLevel_after _ _ _ h0)
      rw [cleanCargoHomeCache_dir, hfil, prune_reg_git_reg, pruneChildDir_idem]

/-- Witness for C9: one concrete pruned tree is a fixed point, obtained by
running the pruner once on a populated `$CARGO_HOME` tree. -/
theorem cleanCargoHomeCache_idempotent_witness :
    CleanCargoHomeCache (some (.dir [("bin".toList, .dir []),
      ("registry".toList, .dir [("index".toList, .dir [])]),
      ("git".toList, .dir [("db".toList, .dir [])])])) =
    .ok (some (.dir [("bin".toList, .dir []),
      ("registry".toList, .dir [("index".toList, .dir [])]),
      ("git".toList, .dir [("db".toList, .dir [])])])) :=
  cleanCargoHomeCache_idempotent
    (some (.dir [("junk".toList, .file), ("bin".toList, .dir []),
      ("registry".toList, .dir [("index".toList, .dir []), ("src".toList, .dir [])]),
      ("git".toList, .dir [("db".toList, .dir []), ("checkouts".toList, .dir [])])]))
    _ (by rfl)

/-- C10: the version extractions of `CargoVersion` and `RustVersion` are
partial — whenever the trimmed captured output contains no space (for
example, empty output) they index out of bounds (modelled as `none`), and
they produce a version (the second field) exactly when the trimmed output
has at least two space-separated fields. -/
theorem versionExtraction_secondField (out : Str) :
    (' ' ∉ trimSpace out → CargoVersion out = none ∧ RustVersion out = none) ∧
    (' ' ∈ trimSpace out →
      (CargoVersion out).isSome = true ∧ (RustVersion out).isSome = true) := by
  constructor
  · intro h
    constructor
    · unfold CargoVersion
      rw [splitN_no_sep (breakOn_eq_none.mpr h)]
      rfl
    · unfold RustVersion
      rw [splitAll_of_not_mem h]
      rfl
  · intro h
    constructor
    · unfold CargoVersion
      rcases h1 : breakOn ' ' (trimSpace out) with _ | ⟨p, q⟩
      · exact absurd h (breakOn_eq_none.mp h1)
      · have hsplit : splitN 3 ' ' (trimSpace out) = p :: splitN 2 ' ' q := by
          show (match breakOn ' ' (trimSpace out) with
            | none => [trimSpace out]
            | some (p, q) => p :: splitN 2 ' ' q) = p :: splitN 2 ' ' q
          rw [h1]
        rw [hsplit]
        rcases h2 : breakOn ' ' q with _ | ⟨u, v⟩
        · rw [splitN_no_sep h2]
          rfl
        · have h2' : splitN 2 ' ' q = u :: splitN 1 ' ' v := by
            show (match breakOn ' ' q with
              | none => [q]
              | some (u, v) => u :: splitN 1 ' ' v) = u :: splitN 1 ' ' v
            rw [h2]
          rw [h2']
          rfl
    · unfold RustVersion
      have hne := splitAll_ne_nil ' ' (trimSpace out)
      have hlen1 : (splitAll ' ' (trimSpace out)).length ≠ 1 := by
        intro hl
        exact (length_splitAll_eq_one.mp hl) h
      have hpos : 0 < (splitAll ' ' (trimSpace out)).length := List.length_pos.mpr hne
      rw [List.getElem?_eq_getElem (by omega)]
      rfl

/-- Witness for C10: empty output indexes out of bounds for both
extractions; two-field outputs yield a version. -/
theorem versionExtraction_secondField_witness :
    (CargoVersion ([] : Str) = none ∧ RustVersion ([] : Str) = none) ∧
    ((CargoVersion ("cargo 1.87.0".toList)).isSome = true ∧
      (RustVersion ("rustc 1.87.0".toList)).isSome = true) :=
  ⟨(versionExtraction_secondField ([] : Str)).1 (by decide),
   ⟨((versionExtraction_secondField ("cargo 1.87.0".toList)).2 (by decide)).1,
    ((versionExtraction_secondField ("rustc 1.87.0".toList)).2 (by decide)).2⟩⟩
